import Mathlib

/-!
Verification of the interval-subdivision core of `task3.py`
(`asymmetric_cantor_pytorch`): an asymmetric Cantor-set construction.

The embedding models real arithmetic with `ℚ` (the algorithm performs only
field operations and comparisons), Python exceptions with `Except`, and the
scalar-or-sequence parameter form with a tagged sum, mirroring the source
line by line:

* `expand_param`   — lines 26-32: a scalar becomes `[p] * iterations`,
  an iterable is taken as a list;
* `resolveParam`   — lines 41-42: `lst[i] if i < len(lst) else lst[-1]`,
  where indexing an empty list from the back is an index error (`none`);
* `validPair`      — line 45: `0 <= ai <= 1 and 0 <= bi <= 1 and ai + bi < 1`;
* `leftChild`, `rightChild`, `nextLevel` — lines 49-68: children of every
  interval, all left children concatenated before all right children
  (`torch.cat([left_intervals, right_intervals])`), then the positive-length
  filter `next_level[:, 1] > next_level[:, 0]`;
* `subdivideFrom`, `subdivide` — lines 35-71: the iteration loop starting
  from level `[[0.0, 1.0]]`, collecting one level per iteration.
-/

namespace Cantor

abbrev Interval := ℚ × ℚ

/-- The `a`/`b` argument: a single scalar or an iterable of per-iteration
values (source lines 26-30). -/
inductive Param where
  | scalar (x : ℚ)
  | seq (xs : List ℚ)

/-- Well-formedness of a parameter for resolution purposes: an empty
sequence makes `lst[-1]` fail in the source, anything else resolves. -/
def Param.ok : Param → Prop
  | .scalar _ => True
  | .seq xs => xs ≠ []

/-- `expand_param` (lines 26-32): an iterable is listed, a scalar is
repeated `iterations` times (zero times when `iterations <= 0`, as in
Python's `[p] * n`). -/
def expand_param (p : Param) (iterations : ℤ) : List ℚ :=
  match p with
  | .seq xs => xs
  | .scalar x => List.replicate iterations.toNat x

/-- Lines 41-42: `lst[i] if i < len(lst) else lst[-1]`; `lst[-1]` on an
empty list is an index error, modelled by `none`. -/
def resolveParam (xs : List ℚ) (i : ℕ) : Option ℚ :=
  if i < xs.length then xs[i]? else xs.getLast?

/-- The validity check of line 45: `0 <= ai <= 1 and 0 <= bi <= 1 and
ai + bi < 1`. -/
def validPair (ai bi : ℚ) : Prop :=
  0 ≤ ai ∧ ai ≤ 1 ∧ 0 ≤ bi ∧ bi ≤ 1 ∧ ai + bi < 1

instance validPair.instDecidable (ai bi : ℚ) : Decidable (validPair ai bi) := by
  unfold validPair; infer_instance

/-- Lines 52-55: the left child `(L, L + ai * (R - L))` of an interval. -/
def leftChild (ai : ℚ) (iv : Interval) : Interval :=
  (iv.1, iv.1 + ai * (iv.2 - iv.1))

/-- Lines 58-61: the right child `(R - bi * (R - L), R)` of an interval. -/
def rightChild (bi : ℚ) (iv : Interval) : Interval :=
  (iv.2 - bi * (iv.2 - iv.1), iv.2)

/-- Lines 49-68: all left children, then all right children
(`torch.cat([left_intervals, right_intervals], dim=0)`), filtered to the
intervals of positive length (`next_level[:, 1] > next_level[:, 0]`). -/
def nextLevel (ai bi : ℚ) (cur : List Interval) : List Interval :=
  (cur.map (leftChild ai) ++ cur.map (rightChild bi)).filter
    (fun iv => decide (iv.1 < iv.2))

/-- Modelled from the spec: the per-interval reference (scalar-loop) mode is
not among the source files; per the spec it visits the parent intervals in
order and appends, for each parent, its left child and then its right child,
each only when it has positive length. -/
def nextLevelRef (ai bi : ℚ) (cur : List Interval) : List Interval :=
  cur.flatMap (fun iv =>
    (if (leftChild ai iv).1 < (leftChild ai iv).2 then [leftChild ai iv] else []) ++
    (if (rightChild bi iv).1 < (rightChild bi iv).2 then [rightChild bi iv] else []))

/-- The failures the source can raise inside the loop: the `ValueError` of
line 46 (the spec's `InvalidParameterError`, carrying the iteration index
and both offending values), and the index error of `lst[-1]` on an empty
parameter sequence (line 41/42). -/
inductive CantorError where
  | invalidParam (i : ℕ) (ai bi : ℚ)
  | indexError (i : ℕ)
deriving DecidableEq

/-- The loop body of lines 37-70, iterating from index `i` for `fuel` more
iterations with current level `cur`; returns the list of levels produced
strictly after `cur`. -/
def subdivideFrom (aList bList : List ℚ) : ℕ → ℕ → List Interval →
    Except CantorError (List (List Interval))
  | _, 0, _ => .ok []
  | i, fuel + 1, cur =>
    match resolveParam aList i with
    | none => .error (.indexError i)
    | some ai =>
      match resolveParam bList i with
      | none => .error (.indexError i)
      | some bi =>
        if validPair ai bi then
          (subdivideFrom aList bList (i + 1) fuel (nextLevel ai bi cur)).map
            (fun rest => nextLevel ai bi cur :: rest)
        else
          .error (.invalidParam i ai bi)

/-- Line 35: the initial level `[[0.0, 1.0]]`. -/
def initialLevel : List Interval := [(0, 1)]

/-- `asymmetric_cantor_pytorch(a, b, iterations)` (lines 4-71): the full
list of levels, starting with `initialLevel`. -/
def subdivide (a b : Param) (iterations : ℤ) :
    Except CantorError (List (List Interval)) :=
  (subdivideFrom (expand_param a iterations) (expand_param b iterations) 0
      iterations.toNat initialLevel).map (fun rest => initialLevel :: rest)

/-- Iteration `i` resolves both parameters and they pass the check. -/
def resolvedValid (aList bList : List ℚ) (i : ℕ) : Prop :=
  ∃ ai bi, resolveParam aList i = some ai ∧ resolveParam bList i = some bi ∧
    validPair ai bi

/-- Two consecutive levels are related by one subdivision step with some
valid parameter pair. -/
def stepRel (prev next : List Interval) : Prop :=
  ∃ ai bi, validPair ai bi ∧ next = nextLevel ai bi prev

/-- Iteration `i` resolves both parameters and they fail the check of
line 45 (the `ValueError` of line 46 fires there). -/
def violatedAt (aList bList : List ℚ) (i : ℕ) : Prop :=
  ∃ ai bi, resolveParam aList i = some ai ∧ resolveParam bList i = some bi ∧
    ¬ validPair ai bi

/-! ### General lemmas about the embedding -/

theorem except_map_eq_ok {ε α β : Type} (f : α → β) (x : Except ε α) (b : β) :
    x.map f = .ok b ↔ ∃ a, x = .ok a ∧ f a = b := by
  cases x <;> simp [Except.map]

theorem except_map_eq_error {ε α β : Type} (f : α → β) (x : Except ε α)
    (e : ε) : x.map f = .error e ↔ x = .error e := by
  cases x <;> simp [Except.map]

theorem resolveParam_isSome (xs : List ℚ) (hxs : xs ≠ []) (i : ℕ) :
    ∃ x, resolveParam xs i = some x := by
  unfold resolveParam
  split
  · next h => exact ⟨xs[i], (List.getElem?_eq_getElem h)⟩
  · exact ⟨xs.getLast hxs, List.getLast?_eq_getLast xs hxs⟩

theorem resolveParam_replicate {n : ℕ} {x y : ℚ} {j : ℕ}
    (h : resolveParam (List.replicate n x) j = some y) : y = x := by
  unfold resolveParam at h
  split at h
  · rw [List.getElem?_replicate] at h
    split at h
    · injection h with h; exact h.symm
    · exact absurd h (by simp)
  · obtain ⟨hne, hy⟩ := List.mem_getLast?_eq_getLast (Option.mem_def.mpr h)
    rw [hy]
    exact List.eq_of_mem_replicate (List.getLast_mem hne)

theorem expand_resolve_total {p : Param} (hp : p.ok) {n : ℤ} {j : ℕ}
    (hj : j < n.toNat) : ∃ x, resolveParam (expand_param p n) j = some x := by
  cases p with
  | scalar x =>
    refine ⟨x, ?_⟩
    simp only [expand_param]
    rw [resolveParam, if_pos (by simpa using hj), List.getElem?_replicate,
      if_pos hj]
  | seq xs => exact resolveParam_isSome xs hp j

/-! ### Lemmas about the iteration loop -/

theorem subdivideFrom_ok_length (aL bL : List ℚ) :
    ∀ (fuel i : ℕ) (cur : List Interval) (rest : List (List Interval)),
      subdivideFrom aL bL i fuel cur = .ok rest → rest.length = fuel := by
  intro fuel
  induction fuel with
  | zero =>
    intro i cur rest h
    simp only [subdivideFrom] at h
    injection h with h
    simp [← h]
  | succ fuel ih =>
    intro i cur rest h
    simp only [subdivideFrom] at h
    cases hra : resolveParam aL i with
    | none => rw [hra] at h; dsimp only at h; exact absurd h (by simp)
    | some ai =>
      cases hrb : resolveParam bL i with
      | none => rw [hra, hrb] at h; dsimp only at h; exact absurd h (by simp)
      | some bi =>
        rw [hra, hrb] at h
        dsimp only at h
        by_cases hv : validPair ai bi
        · rw [if_pos hv, except_map_eq_ok] at h
          obtain ⟨rest0, hrec, hcons⟩ := h
          have := ih (i + 1) (nextLevel ai bi cur) rest0 hrec
          simp [← hcons, this]
        · rw [if_neg hv] at h; exact absurd h (by simp)

theorem subdivideFrom_ok_of_valid (aL bL : List ℚ) :
    ∀ (fuel i : ℕ) (cur : List Interval),
      (∀ j, i ≤ j → j < i + fuel → resolvedValid aL bL j) →
      ∃ rest, subdivideFrom aL bL i fuel cur = .ok rest ∧ rest.length = fuel := by
  intro fuel
  induction fuel with
  | zero => intro i cur _; exact ⟨[], by simp [subdivideFrom], rfl⟩
  | succ fuel ih =>
    intro i cur hvalid
    obtain ⟨ai, bi, hra, hrb, hv⟩ := hvalid i (le_refl i) (by omega)
    obtain ⟨rest0, hrec, hlen⟩ := ih (i + 1) (nextLevel ai bi cur)
      (fun j h1 h2 => hvalid j (by omega) (by omega))
    refine ⟨nextLevel ai bi cur :: rest0, ?_, by simp [hlen]⟩
    simp only [subdivideFrom, hra, hrb, if_pos hv, hrec, Except.map]

theorem subdivideFrom_error_invalid (aL bL : List ℚ) :
    ∀ (fuel i : ℕ) (cur : List Interval) (k : ℕ) (ak bk : ℚ),
      subdivideFrom aL bL i fuel cur = .error (.invalidParam k ak bk) →
      i ≤ k ∧ k < i + fuel ∧ resolveParam aL k = some ak ∧
        resolveParam bL k = some bk ∧ ¬ validPair ak bk := by
  intro fuel
  induction fuel with
  | zero => intro i cur k ak bk h; exact absurd h (by simp [subdivideFrom])
  | succ fuel ih =>
    intro i cur k ak bk h
    simp only [subdivideFrom] at h
    cases hra : resolveParam aL i with
    | none =>
      rw [hra] at h
      dsimp only at h
      injection h with h
      exact absurd h (by simp)
    | some ai =>
      cases hrb : resolveParam bL i with
      | none =>
        rw [hra, hrb] at h
        dsimp only at h
        injection h with h
        exact absurd h (by simp)
      | some bi =>
        rw [hra, hrb] at h
        dsimp only at h
        by_cases hv : validPair ai bi
        · rw [if_pos hv, except_map_eq_error] at h
          obtain ⟨h1, h2, h3, h4, h5⟩ :=
            ih (i + 1) (nextLevel ai bi cur) k ak bk h
          exact ⟨by omega, by omega, h3, h4, h5⟩
        · rw [if_neg hv] at h
          injection h with h
          cases h
          exact ⟨le_refl i, by omega, hra, hrb, hv⟩

theorem subdivideFrom_first_invalid (aL bL : List ℚ) :
    ∀ (fuel i : ℕ) (cur : List Interval) (k : ℕ) (ak bk : ℚ),
      i ≤ k → k < i + fuel →
      (∀ j, i ≤ j → j < k → resolvedValid aL bL j) →
      resolveParam aL k = some ak → resolveParam bL k = some bk →
      ¬ validPair ak bk →
      subdivideFrom aL bL i fuel cur = .error (.invalidParam k ak bk) := by
  intro fuel
  induction fuel with
  | zero => intro i cur k ak bk h1 h2; omega
  | succ fuel ih =>
    intro i cur k ak bk h1 h2 hvalid hak hbk hinv
    rcases Nat.eq_or_lt_of_le h1 with rfl | hlt
    · simp only [subdivideFrom, hak, hbk, if_neg hinv]
    · obtain ⟨ai, bi, hra, hrb, hv⟩ := hvalid i (le_refl i) hlt
      have hrec := ih (i + 1) (nextLevel ai bi cur) k ak bk (by omega)
        (by omega) (fun j hj1 hj2 => hvalid j (by omega) hj2) hak hbk hinv
      simp only [subdivideFrom, hra, hrb, if_pos hv, hrec, Except.map]

theorem subdivideFrom_chain (aL bL : List ℚ) :
    ∀ (fuel i : ℕ) (cur : List Interval) (rest : List (List Interval)),
      subdivideFrom aL bL i fuel cur = .ok rest →
      List.Chain' stepRel (cur :: rest) := by
  intro fuel
  induction fuel with
  | zero =>
    intro i cur rest h
    simp only [subdivideFrom] at h
    injection h with h
    simp [← h]
  | succ fuel ih =>
    intro i cur rest h
    simp only [subdivideFrom] at h
    cases hra : resolveParam aL i with
    | none => rw [hra] at h; dsimp only at h; exact absurd h (by simp)
    | some ai =>
      cases hrb : resolveParam bL i with
      | none => rw [hra, hrb] at h; dsimp only at h; exact absurd h (by simp)
      | some bi =>
        rw [hra, hrb] at h
        dsimp only at h
        by_cases hv : validPair ai bi
        · rw [if_pos hv, except_map_eq_ok] at h
          obtain ⟨rest0, hrec, hcons⟩ := h
          rw [← hcons, List.chain'_cons]
          exact ⟨⟨ai, bi, hv, rfl⟩, ih (i + 1) (nextLevel ai bi cur) rest0 hrec⟩
        · rw [if_neg hv] at h; exact absurd h (by simp)

/-! ### Geometric lemmas about one subdivision step -/

theorem nextLevel_containment {ai bi : ℚ} (hv : validPair ai bi)
    {cur : List Interval} {iv : Interval} (hiv : iv ∈ nextLevel ai bi cur) :
    ∃ p ∈ cur, p.1 ≤ iv.1 ∧ iv.2 ≤ p.2 ∧
      (iv = leftChild ai p ∨ iv = rightChild bi p) := by
  obtain ⟨h0, h1, h2, h3, _⟩ := hv
  unfold nextLevel at hiv
  rw [List.mem_filter, decide_eq_true_iff] at hiv
  obtain ⟨hmem, hpos⟩ := hiv
  rw [List.mem_append] at hmem
  rcases hmem with hmem | hmem <;> rw [List.mem_map] at hmem <;>
    obtain ⟨p, hp, rfl⟩ := hmem
  · refine ⟨p, hp, le_refl _, ?_, Or.inl rfl⟩
    simp only [leftChild] at hpos ⊢
    have hd : 0 < p.2 - p.1 := by nlinarith
    nlinarith
  · refine ⟨p, hp, ?_, le_refl _, Or.inr rfl⟩
    simp only [rightChild] at hpos ⊢
    have hd : 0 < p.2 - p.1 := by nlinarith
    nlinarith

theorem nextLevel_doubling {ai bi : ℚ} (ha : 0 < ai) (hb : 0 < bi)
    {cur : List Interval} (hcur : ∀ iv ∈ cur, iv.1 < iv.2) :
    (nextLevel ai bi cur).length = 2 * cur.length ∧
      ∀ iv ∈ nextLevel ai bi cur, iv.1 < iv.2 := by
  have hall : ∀ x ∈ cur.map (leftChild ai) ++ cur.map (rightChild bi),
      decide (x.1 < x.2) = true := by
    intro x hx
    rw [decide_eq_true_iff]
    rw [List.mem_append] at hx
    rcases hx with hx | hx <;> rw [List.mem_map] at hx <;>
      obtain ⟨p, hp, rfl⟩ := hx <;> have hd := hcur p hp
    · simp only [leftChild]
      nlinarith
    · simp only [rightChild]
      nlinarith
  constructor
  · unfold nextLevel
    rw [List.filter_eq_self.mpr hall]
    simp [List.length_append, List.length_map]
    ring
  · intro iv hiv
    unfold nextLevel at hiv
    rw [List.mem_filter, decide_eq_true_iff] at hiv
    exact hiv.2

theorem subdivideFrom_pow (aL bL : List ℚ)
    (hA : ∀ j y, resolveParam aL j = some y → 0 < y)
    (hB : ∀ j y, resolveParam bL j = some y → 0 < y) :
    ∀ (fuel i : ℕ) (cur : List Interval) (rest : List (List Interval)),
      subdivideFrom aL bL i fuel cur = .ok rest →
      (∀ iv ∈ cur, iv.1 < iv.2) →
      ∀ (k : ℕ) (hk : k < rest.length),
        (rest.get ⟨k, hk⟩).length = 2 ^ (k + 1) * cur.length := by
  intro fuel
  induction fuel with
  | zero =>
    intro i cur rest h _
    simp only [subdivideFrom] at h
    injection h with h
    subst h
    intro k hk
    exact absurd hk (by simp)
  | succ fuel ih =>
    intro i cur rest h hcur
    simp only [subdivideFrom] at h
    cases hra : resolveParam aL i with
    | none => rw [hra] at h; dsimp only at h; exact absurd h (by simp)
    | some ai =>
      cases hrb : resolveParam bL i with
      | none => rw [hra, hrb] at h; dsimp only at h; exact absurd h (by simp)
      | some bi =>
        rw [hra, hrb] at h
        dsimp only at h
        by_cases hv : validPair ai bi
        · rw [if_pos hv, except_map_eq_ok] at h
          obtain ⟨rest0, hrec, hcons⟩ := h
          obtain ⟨hdouble, hinv⟩ :=
            nextLevel_doubling (hA i ai hra) (hB i bi hrb) hcur
          subst hcons
          intro k hk
          cases k with
          | zero => simpa using hdouble
          | succ k =>
            have hk0 : k < rest0.length := by simpa using hk
            have hstep := ih (i + 1) (nextLevel ai bi cur) rest0 hrec hinv k hk0
            have hget : (nextLevel ai bi cur :: rest0).get ⟨k + 1, hk⟩ =
                rest0.get ⟨k, hk0⟩ := rfl
            rw [hget, hstep, hdouble]
            ring
        · rw [if_neg hv] at h; exact absurd h (by simp)

theorem resolvedValid_scalar {a b : ℚ} (hv : validPair a b) (n : ℤ) (j : ℕ)
    (hj : j < n.toNat) :
    resolvedValid (expand_param (.scalar a) n) (expand_param (.scalar b) n)
      j := by
  refine ⟨a, b, ?_, ?_, hv⟩ <;>
  · simp only [expand_param]
    rw [resolveParam, if_pos (by simpa using hj), List.getElem?_replicate,
      if_pos hj]

/-! ### The claims -/

/-- C1: the claim is false of the batched code. At `subdivide(1/3, 1/3, 2)`
the produced level 2 lists all left children before all right children
(`torch.cat([left_intervals, right_intervals])`), so it is neither
parent-interleaved nor sorted ascending by left endpoint, and it differs
from the spec-modelled per-interval reference step applied to level 1. -/
theorem batched_order_diverges :
    subdivide (.scalar (1/3)) (.scalar (1/3)) 2 =
      .ok [[(0, 1)], [(0, 1/3), (2/3, 1)],
           [(0, 1/9), (2/3, 7/9), (2/9, 1/3), (8/9, 1)]]
    ∧ ¬ List.Sorted (fun p q : Interval => p.1 ≤ q.1)
        [((0 : ℚ), 1/9), (2/3, 7/9), (2/9, 1/3), (8/9, 1)]
    ∧ nextLevel (1/3) (1/3) [(0, 1/3), (2/3, 1)] ≠
        nextLevelRef (1/3) (1/3) [(0, 1/3), (2/3, 1)] := by
  refine ⟨?_, ?_, ?_⟩
  · norm_num [subdivide, subdivideFrom, resolveParam, expand_param, nextLevel,
      leftChild, rightChild, validPair, initialLevel, Except.map, List.filter,
      List.replicate]
  · norm_num [List.Sorted]
  · norm_num [nextLevel, nextLevelRef, leftChild, rightChild, List.filter,
      List.flatMap]

/-- C2: with resolvable parameters, `subdivide` fails with the
invalid-parameter error iff some iteration index below the count resolves to
values failing the check of line 45; `subdivide(0.6, 0.5, 1)` raises it at
iteration 0 carrying both values, while the boundary values `a = 0`,
`b = 0.5` are accepted. -/
theorem invalid_param_error_iff :
    (∀ (a b : Param) (n : ℤ), a.ok → b.ok →
      ((∃ k ak bk, subdivide a b n = .error (.invalidParam k ak bk)) ↔
        ∃ i < n.toNat,
          violatedAt (expand_param a n) (expand_param b n) i))
    ∧ subdivide (.scalar (6/10)) (.scalar (5/10)) 1 =
        .error (.invalidParam 0 (6/10) (5/10))
    ∧ ∃ ls, subdivide (.scalar 0) (.scalar (5/10)) 1 = .ok ls := by
  refine ⟨?_, ?_, ?_⟩
  · intro a b n ha hb
    constructor
    · rintro ⟨k, ak, bk, herr⟩
      unfold subdivide at herr
      rw [except_map_eq_error] at herr
      obtain ⟨_, h2, h3, h4, h5⟩ :=
        subdivideFrom_error_invalid _ _ n.toNat 0 initialLevel k ak bk herr
      exact ⟨k, by omega, ak, bk, h3, h4, h5⟩
    · rintro ⟨i, hi, hviol⟩
      classical
      have hex : ∃ j, j < n.toNat ∧
          violatedAt (expand_param a n) (expand_param b n) j := ⟨i, hi, hviol⟩
      obtain ⟨hk, hkviol⟩ := Nat.find_spec hex
      have hvalid : ∀ j, 0 ≤ j → j < Nat.find hex →
          resolvedValid (expand_param a n) (expand_param b n) j := by
        intro j _ hj
        have hnot := Nat.find_min hex hj
        have hjn : j < n.toNat := by omega
        obtain ⟨xa, hxa⟩ := expand_resolve_total ha hjn
        obtain ⟨xb, hxb⟩ := expand_resolve_total hb hjn
        refine ⟨xa, xb, hxa, hxb, ?_⟩
        by_contra hnv
        exact hnot ⟨hjn, xa, xb, hxa, hxb, hnv⟩
      obtain ⟨ak, bk, hak, hbk, hnv⟩ := hkviol
      refine ⟨Nat.find hex, ak, bk, ?_⟩
      unfold subdivide
      rw [except_map_eq_error]
      exact subdivideFrom_first_invalid _ _ n.toNat 0 initialLevel
        (Nat.find hex) ak bk (Nat.zero_le _) (by omega) hvalid hak hbk hnv
  · norm_num [subdivide, subdivideFrom, resolveParam, expand_param, validPair,
      initialLevel, Except.map, List.replicate]
  · refine ⟨[[(0, 1)], [(1/2, 1)]], ?_⟩
    norm_num [subdivide, subdivideFrom, resolveParam, expand_param, nextLevel,
      leftChild, rightChild, validPair, initialLevel, Except.map, List.filter,
      List.replicate]

theorem invalid_param_error_iff_witness :
    ∃ i < Int.toNat 1, violatedAt (expand_param (.scalar (6/10)) 1)
      (expand_param (.scalar (5/10)) 1) i :=
  (invalid_param_error_iff.1 (.scalar (6/10)) (.scalar (5/10)) 1 trivial
    trivial).mp ⟨0, 6/10, 5/10, invalid_param_error_iff.2.1⟩

/-- C3: for parameters that resolve and validate at every iteration and
`n ≥ 0`, `subdivide` succeeds with exactly `n + 1` levels, the first being
`[(0, 1)]` (so for `n = 0` the result is that single level). -/
theorem level_count (a b : Param) (n : ℤ) (hn : 0 ≤ n)
    (hv : ∀ i < n.toNat,
      resolvedValid (expand_param a n) (expand_param b n) i) :
    ∃ ls, subdivide a b n = .ok ls ∧ (ls.length : ℤ) = n + 1 ∧
      ls.head? = some initialLevel := by
  obtain ⟨rest, hok, hlen⟩ := subdivideFrom_ok_of_valid
    (expand_param a n) (expand_param b n) n.toNat 0 initialLevel
    (fun j _ h2 => hv j (by omega))
  refine ⟨initialLevel :: rest, ?_, ?_, rfl⟩
  · unfold subdivide
    rw [hok]
    rfl
  · simp only [List.length_cons, hlen]
    omega

theorem level_count_witness :
    ∃ ls, subdivide (.scalar (1/4)) (.scalar (1/2)) 0 = .ok ls ∧
      (ls.length : ℤ) = 0 + 1 ∧ ls.head? = some initialLevel :=
  level_count (.scalar (1/4)) (.scalar (1/2)) 0 (by norm_num)
    (fun i hi => absurd hi (by omega))

/-- C4: a parameter sequence shorter than the iteration count resolves, at
every index at or beyond its length, to its last element, never an error;
`subdivide([0.3, 0.2], 0.1, 3)` resolves `a` to `0.3` at iteration 0 and to
`0.2` at iterations 1 and 2. -/
theorem clamp_to_last :
    (∀ (xs : List ℚ) (hxs : xs ≠ []) (i : ℕ), xs.length ≤ i →
      resolveParam xs i = some (xs.getLast hxs))
    ∧ resolveParam (expand_param (.seq [3/10, 2/10]) 3) 0 = some (3/10)
    ∧ resolveParam (expand_param (.seq [3/10, 2/10]) 3) 1 = some (2/10)
    ∧ resolveParam (expand_param (.seq [3/10, 2/10]) 3) 2 = some (2/10) := by
  refine ⟨?_, ?_, ?_, ?_⟩
  · intro xs hxs i hi
    rw [resolveParam, if_neg (by omega), List.getLast?_eq_getLast xs hxs]
  · norm_num [resolveParam, expand_param]
  · norm_num [resolveParam, expand_param]
  · norm_num [resolveParam, expand_param, List.getLast?]

theorem clamp_to_last_witness :
    resolveParam [(3 : ℚ)/10, 2/10] 7 = some ((2 : ℚ)/10) := by
  rw [clamp_to_last.1 [3/10, 2/10] (by simp) 7 (by simp)]
  norm_num [List.getLast]

/-- C5: if every iteration before `k` resolves to valid parameters and
iteration `k < n` resolves to invalid ones, `subdivide` returns the
invalid-parameter error naming `k` and both values, and no levels — the
per-iteration validation runs before any interval of the level is
processed, also when that level is empty. -/
theorem validation_first_failure (a b : Param) (n : ℤ) (k : ℕ)
    (hk : k < n.toNat)
    (hvalid : ∀ j, 0 ≤ j → j < k →
      resolvedValid (expand_param a n) (expand_param b n) j)
    (ak bk : ℚ)
    (hak : resolveParam (expand_param a n) k = some ak)
    (hbk : resolveParam (expand_param b n) k = some bk)
    (hinv : ¬ validPair ak bk) :
    subdivide a b n = .error (.invalidParam k ak bk) := by
  unfold subdivide
  rw [except_map_eq_error]
  exact subdivideFrom_first_invalid _ _ n.toNat 0 initialLevel k ak bk
    (Nat.zero_le k) (by omega) hvalid hak hbk hinv

theorem validation_first_failure_witness :
    subdivide (.seq [0, 0, 2]) (.scalar 0) 3 =
      .error (.invalidParam 2 2 0) := by
  apply validation_first_failure (.seq [0, 0, 2]) (.scalar 0) 3 2 (by omega)
    ?_ 2 0 ?_ ?_ ?_
  · intro j _ hj
    interval_cases j
    · exact ⟨0, 0, by norm_num [resolveParam, expand_param],
        by norm_num [resolveParam, expand_param, List.replicate],
        by norm_num [validPair]⟩
    · exact ⟨0, 0, by norm_num [resolveParam, expand_param],
        by norm_num [resolveParam, expand_param, List.replicate],
        by norm_num [validPair]⟩
  · norm_num [resolveParam, expand_param]
  · norm_num [resolveParam, expand_param, List.replicate]
  · norm_num [validPair]

/-- C6: `subdivide(0.0, 0.0, 3)` succeeds with level 0 equal to
`[(0, 1)]` and levels 1, 2 and 3 all empty: both zero-length children of
every interval are dropped and the empty level propagates with no early
stopping. -/
theorem zero_params_empty_levels :
    subdivide (.scalar 0) (.scalar 0) 3 = .ok [[(0, 1)], [], [], []] := by
  norm_num [subdivide, subdivideFrom, resolveParam, expand_param, nextLevel,
    leftChild, rightChild, validPair, initialLevel, Except.map, List.filter,
    List.replicate]

/-- C7: every interval of level `i + 1` of a successful run is contained in
some interval `p` of level `i`, of which it is the left child
`(L, L + ai*(R-L))` or the right child `(R - bi*(R-L), R)` for a valid
parameter pair. -/
theorem level_containment (a b : Param) (n : ℤ)
    (ls : List (List Interval)) (h : subdivide a b n = .ok ls) (i : ℕ)
    (hi : i + 1 < ls.length) (iv : Interval)
    (hiv : iv ∈ ls.get ⟨i + 1, hi⟩) :
    ∃ p ∈ ls.get ⟨i, Nat.lt_of_succ_lt hi⟩,
      p.1 ≤ iv.1 ∧ iv.2 ≤ p.2 ∧
      ∃ ai bi, validPair ai bi ∧
        (iv = leftChild ai p ∨ iv = rightChild bi p) := by
  unfold subdivide at h
  rw [except_map_eq_ok] at h
  obtain ⟨rest, hok, hcons⟩ := h
  have hchain : List.Chain' stepRel ls := by
    rw [← hcons]
    exact subdivideFrom_chain _ _ n.toNat 0 initialLevel rest hok
  have hrel := List.chain'_iff_get.mp hchain i (by omega)
  obtain ⟨ai, bi, hv, hnext⟩ := hrel
  have hnext2 : ls.get ⟨i + 1, hi⟩ =
      nextLevel ai bi (ls.get ⟨i, Nat.lt_of_succ_lt hi⟩) := hnext
  rw [hnext2] at hiv
  obtain ⟨p, hp, h1, h2, h3⟩ := nextLevel_containment hv hiv
  exact ⟨p, hp, h1, h2, ai, bi, hv, h3⟩

theorem level_containment_witness :
    ∃ p ∈ [((0 : ℚ), (1 : ℚ))], p.1 ≤ 0 ∧ (1/3 : ℚ) ≤ p.2 := by
  obtain ⟨p, hp, h1, h2, _⟩ :=
    level_containment (.scalar (1/3)) (.scalar (1/3)) 1
      [[(0, 1)], [(0, 1/3), (2/3, 1)]]
      (by norm_num [subdivide, subdivideFrom, resolveParam, expand_param,
        nextLevel, leftChild, rightChild, validPair, initialLevel, Except.map,
        List.filter, List.replicate])
      0 (by norm_num) (0, 1/3) (List.mem_cons_self _ _)
  exact ⟨p, hp, h1, h2⟩

/-- C8: `subdivide(1/3, 1/3, 1)` yields level 1 equal to
`[(0, 1/3), (2/3, 1)]`, the classic ternary Cantor step (exact in the
rational model, so within any floating-point tolerance). -/
theorem ternary_cantor_step :
    subdivide (.scalar (1/3)) (.scalar (1/3)) 1 =
      .ok [[(0, 1)], [(0, 1/3), (2/3, 1)]] := by
  norm_num [subdivide, subdivideFrom, resolveParam, expand_param, nextLevel,
    leftChild, rightChild, validPair, initialLevel, Except.map, List.filter,
    List.replicate]

/-- C9: for strictly positive scalar `a`, `b` with `a + b < 1`, the run
succeeds and level `i` has at most `2 ^ i` intervals — indeed exactly
`2 ^ i`, since in exact arithmetic no child of a positive-length interval
degenerates to zero length. -/
theorem level_size_pow (a b : ℚ) (ha : 0 < a) (hb : 0 < b)
    (hab : a + b < 1) (n : ℤ) :
    ∃ ls, subdivide (.scalar a) (.scalar b) n = .ok ls ∧
      ∀ (i : ℕ) (hi : i < ls.length),
        (ls.get ⟨i, hi⟩).length ≤ 2 ^ i ∧
          (ls.get ⟨i, hi⟩).length = 2 ^ i := by
  have hvp : validPair a b :=
    ⟨le_of_lt ha, by linarith, le_of_lt hb, by linarith, hab⟩
  obtain ⟨rest, hok, _⟩ := subdivideFrom_ok_of_valid
    (expand_param (.scalar a) n) (expand_param (.scalar b) n) n.toNat 0
    initialLevel (fun j _ h2 => resolvedValid_scalar hvp n j (by omega))
  have hA : ∀ j y, resolveParam (expand_param (.scalar a) n) j = some y →
      0 < y := by
    intro j y hy
    simp only [expand_param] at hy
    rw [resolveParam_replicate hy]
    exact ha
  have hB : ∀ j y, resolveParam (expand_param (.scalar b) n) j = some y →
      0 < y := by
    intro j y hy
    simp only [expand_param] at hy
    rw [resolveParam_replicate hy]
    exact hb
  refine ⟨initialLevel :: rest, ?_, ?_⟩
  · unfold subdivide
    rw [hok]
    rfl
  · intro i hi
    have hpow := subdivideFrom_pow _ _ hA hB n.toNat 0 initialLevel rest hok
      (by
        intro iv hiv
        simp only [initialLevel, List.mem_singleton] at hiv
        rw [hiv]
        norm_num)
    cases i with
    | zero => constructor <;> simp [initialLevel]
    | succ k =>
      have hk : k < rest.length := by simpa using hi
      have hlen := hpow k hk
      have hget : (initialLevel :: rest).get ⟨k + 1, hi⟩ =
          rest.get ⟨k, hk⟩ := rfl
      rw [hget, hlen]
      constructor <;> simp [initialLevel]

theorem level_size_pow_witness :
    ∃ ls, subdivide (.scalar (1/4)) (.scalar (1/4)) 2 = .ok ls ∧
      ∀ (i : ℕ) (hi : i < ls.length),
        (ls.get ⟨i, hi⟩).length ≤ 2 ^ i ∧
          (ls.get ⟨i, hi⟩).length = 2 ^ i :=
  level_size_pow (1/4) (1/4) (by norm_num) (by norm_num) (by norm_num) 2

/-- C10: for any parameters and a negative iteration count, the loop runs
zero times, so no resolution or validation happens and the result is the
single level `[(0, 1)]`. -/
theorem negative_iterations (a b : Param) (n : ℤ) (hn : n < 0) :
    subdivide a b n = .ok [initialLevel] := by
  unfold subdivide
  rw [Int.toNat_of_nonpos (le_of_lt hn)]
  rfl

theorem negative_iterations_witness :
    subdivide (.scalar 5) (.scalar 7) (-2) = .ok [initialLevel] :=
  negative_iterations (.scalar 5) (.scalar 7) (-2) (by norm_num)

end Cantor
